import Mathlib

/-!
Shallow embedding of the PGM parser-combinator program (`src/main.rs`).

Byte slices (`&[u8]`, the program's `ParseInput`) are modelled as `List Nat`
whose elements are byte values; `usize` values as `Nat`; `i32` values as `Int`
with explicit range checks where the program performs them.  A Rust panic
(slice index out of range, arithmetic overflow under the checked semantics
that Rust specifies for debug builds, or an explicit panic) is modelled by the
extra outcome `PResult.fatal`, so that "returns an error" and "aborts" stay
distinguishable.
-/

/-- The error enumeration `ParseErr` of the source, one constructor per Rust
variant.  Payloads that only carry diagnostic messages (`Utf8Error`,
`InvalidNum`) are dropped; the `String` payload of `InvByte` is kept. -/
inductive ParseErr where
  | NoValidFieldLeft : ParseErr
  | NoHeaderMatch : ParseErr
  | Utf8Error : ParseErr
  | InvalidNum : ParseErr
  | InvByte : String → ParseErr
  deriving DecidableEq, Repr

/-- The source's `ParseResult<'a, T> = Result<(T, &[u8]), (ParseErr, &[u8])>`,
extended with a `fatal` outcome that models a Rust panic. -/
inductive PResult (α : Type) where
  | ok : α → List Nat → PResult α
  | err : ParseErr → List Nat → PResult α
  | fatal : PResult α
  deriving DecidableEq, Repr

/-- A parser, as in the source: a function from the remaining input to a
`ParseResult`. -/
abbrev Parser (α : Type) : Type := List Nat → PResult α

/-- The combinator `map` of the source: run the parser, on success transform
the value and keep the remainder; errors and panics pass through. -/
def map {α β : Type} (p : Parser α) (f : α → β) : Parser β := fun input =>
  match p input with
  | .ok out rest => .ok (f out) rest
  | .err e s => .err e s
  | .fatal => .fatal

/-- The combinator `and_then` of the source: run the parser, on success feed
the value to `f` and run the resulting parser on the remainder; errors and
panics short-circuit. -/
def and_then {α β : Type} (p : Parser α) (f : α → Parser β) : Parser β := fun input =>
  match p input with
  | .ok out rest => f out rest
  | .err e s => .err e s
  | .fatal => .fatal

/-- ASCII whitespace, the byte-level restriction of the whitespace notion used
by `bstr`'s `fields()` (which decodes lossily and splits on Unicode
whitespace).  On inputs made of bytes below `0x80` — every input the program's
format and tests exercise — the two notions coincide. -/
def isWS (b : Nat) : Bool :=
  b = 9 || b = 10 || b = 11 || b = 12 || b = 13 || b = 32

/-- `input.fields().next()` of the source: the first maximal run of
non-whitespace bytes, after skipping leading whitespace; `none` when the input
is empty or all whitespace. -/
def firstField (input : List Nat) : Option (List Nat) :=
  let rest := input.dropWhile isWS
  if rest = [] then none else some (rest.takeWhile (fun c => !isWS c))

/-- A UTF-8 continuation byte, `0x80..=0xBF`. -/
def isCont (b : Nat) : Bool := 128 ≤ b && b ≤ 191

/-- UTF-8 validity as a byte-at-a-time run: the first argument lists the
`(lo, hi)` ranges the next bytes must fall into (the pending continuation
bytes of the current scalar); at a lead-byte position the byte is classified
per the UTF-8 table (overlongs and surrogates excluded via the tightened
ranges after `0xE0`, `0xED`, `0xF0`, `0xF4`). -/
def utf8Run : List (Nat × Nat) → List Nat → Bool
  | [], [] => true
  | _ :: _, [] => false
  | (lo, hi) :: exp, b :: bs => (lo ≤ b && b ≤ hi) && utf8Run exp bs
  | [], b :: bs =>
    if b ≤ 127 then utf8Run [] bs
    else if 194 ≤ b && b ≤ 223 then utf8Run [(128, 191)] bs
    else if b = 224 then utf8Run [(160, 191), (128, 191)] bs
    else if 225 ≤ b && b ≤ 236 then utf8Run [(128, 191), (128, 191)] bs
    else if b = 237 then utf8Run [(128, 159), (128, 191)] bs
    else if 238 ≤ b && b ≤ 239 then utf8Run [(128, 191), (128, 191)] bs
    else if b = 240 then utf8Run [(144, 191), (128, 191), (128, 191)] bs
    else if 241 ≤ b && b ≤ 243 then utf8Run [(128, 191), (128, 191), (128, 191)] bs
    else if b = 244 then utf8Run [(128, 143), (128, 191), (128, 191)] bs
    else false

/-- UTF-8 validity of a byte sequence, the check behind the source's
`raw_num_str.to_str()` (`bstr::ByteSlice::to_str`). -/
def validUtf8 (l : List Nat) : Bool := utf8Run [] l

/-- An ASCII decimal digit byte, `b'0'..=b'9'`. -/
def isDigitB (b : Nat) : Bool := 48 ≤ b && b ≤ 57

/-- Value of a big-endian list of ASCII digit bytes. -/
def decValue (ds : List Nat) : Nat :=
  ds.foldl (fun acc d => 10 * acc + (d - 48)) 0

/-- `str::parse::<i32>` on the raw bytes of an already UTF-8-valid field: an
optional sign followed by a non-empty run of ASCII digits, rejected when the
value does not fit in `i32`. -/
def parseI32 (raw : List Nat) : Option Int :=
  match raw with
  | [] => none
  | b :: ds =>
    if b = 43 then
      if ds ≠ [] ∧ ds.all isDigitB = true ∧ decValue ds ≤ 2147483647 then
        some (decValue ds)
      else none
    else if b = 45 then
      if ds ≠ [] ∧ ds.all isDigitB = true ∧ decValue ds ≤ 2147483648 then
        some (-(decValue ds : Int))
      else none
    else
      if (b :: ds).all isDigitB = true ∧ decValue (b :: ds) ≤ 2147483647 then
        some (decValue (b :: ds))
      else none

/-- `match_header_version` of the source: if the input starts with the bytes
of `"P5"` ( `[80, 53]` ), succeed with unit and drop `"P5".len() + 1 = 3`
bytes; otherwise fail with `NoHeaderMatch` and the unchanged input.  The slice
`&input[3..]` aborts when the input is exactly the two bytes `"P5"`. -/
def match_header_version : Parser Unit := fun input =>
  if input.take 2 = [80, 53] then
    if 3 ≤ input.length then .ok () (input.drop 3)
    else .fatal
  else .err .NoHeaderMatch input

/-- `get_num` of the source: take the first whitespace-delimited field; fail
with `NoValidFieldLeft` when there is none, `Utf8Error` when it is not valid
UTF-8, `InvalidNum` when it does not parse as an `i32`; on success drop, from
the start of the input, the field's length when it equals the input's length
and the field's length plus one otherwise (the `Ordering::Greater` arm of the
source panics). -/
def get_num : Parser Int := fun input =>
  match firstField input with
  | none => .err .NoValidFieldLeft input
  | some raw =>
    if validUtf8 raw = true then
      match parseI32 raw with
      | none => .err .InvalidNum input
      | some num =>
        if raw.length > input.length then .fatal
        else if raw.length = input.length then .ok num (input.drop raw.length)
        else .ok num (input.drop (raw.length + 1))
    else .err .Utf8Error input

/-- `get_bytes` of the source.  `<&[u8] as Read>::bytes(input).take(amount)`
yields the first `min(amount, input.len())` bytes and never an `Err` (reading
from a byte slice cannot fail), so the fold always succeeds with
`input.take amount` and the `or_else` branch that would build
`ParseErr::InvByte` is unreachable; the final slice `&input[amount..]` aborts
when `amount > input.len()`. -/
def get_bytes (input : List Nat) (amount : Nat) : PResult (List Nat) :=
  let parsed := input.take amount
  if amount ≤ input.length then .ok parsed (input.drop amount)
  else .fatal

/-- The record `PGM` of the source: `width` and `height` are `usize`,
`max_grey_val` is a `u8`, `contents` is the (newtype-wrapped) pixel byte
vector. -/
structure PGM where
  width : Nat
  height : Nat
  max_grey_val : Nat
  contents : List Nat
  deriving DecidableEq, Repr

/-- The `as usize` cast of an `i32` on a 64-bit target: reduce modulo `2^64`
(negative values sign-extend and wrap). -/
def toUsize (x : Int) : Nat := (x % 2 ^ 64).toNat

/-- `parse_pgm` of the source, the `parse_do!` block expanded into its
`and_then` chain: header, three `get_num`s, then `get_bytes` for
`(width * height) as usize` bytes, then the final record.  The `i32` product
`width * height` aborts on overflow (Rust's checked arithmetic semantics);
in range, the cast `as usize` is `toUsize`. -/
def parse_pgm : Parser PGM :=
  and_then match_header_version fun _ =>
  and_then get_num fun width =>
  and_then get_num fun height =>
  and_then get_num fun max_grey_val =>
  and_then (fun i =>
    if width * height < -2147483648 ∨ 2147483647 < width * height then .fatal
    else get_bytes i (toUsize (width * height))) fun contents =>
  fun input =>
    .ok { width := toUsize width, height := toUsize height,
          max_grey_val := (max_grey_val % 256).toNat,
          contents := contents } input

/-- Little-endian base-10 digits of `n`, computed with explicit fuel so that
the definition reduces in the kernel; agrees with `Nat.digits 10 n` whenever
`n ≤ fuel` (proved below). -/
def toDecAux : Nat → Nat → List Nat
  | 0, _ => []
  | fuel + 1, n => if n = 0 then [] else n % 10 :: toDecAux fuel (n / 10)

/-- Canonical decimal rendering of a natural number as ASCII digit bytes,
as Rust's `Display` for integers produces it. -/
def toDecimal (n : Nat) : List Nat :=
  if n = 0 then [48] else (toDecAux n n).reverse.map (fun d => d + 48)

/-- A well-formed "P5" input assembled from its four parts, as in §8 of the
specification: `"P5\n" ++ decimal W ++ " " ++ decimal H ++ " " ++ decimal M ++
"\n" ++ bytes`. -/
def pgmInput (W H M : Nat) (bytes : List Nat) : List Nat :=
  [80, 53, 10] ++ (toDecimal W ++ (32 :: (toDecimal H ++ (32 :: (toDecimal M ++ (10 :: bytes))))))

/-- The parsers expressible in the system: the three primitives, the constant
parsers produced by the `return` clause of the `parse_do!` macro, parsers that
abort (a panicking closure body), and everything built from these with `map`
and `and_then`. -/
inductive Built : (α : Type) → Parser α → Prop where
  | headerP : Built Unit match_header_version
  | numP : Built Int get_num
  | bytesP (n : Nat) : Built (List Nat) (fun i => get_bytes i n)
  | pureP {α : Type} (a : α) : Built α (fun i => .ok a i)
  | fatalP {α : Type} : Built α (fun _ => .fatal)
  | mapP {α β : Type} (p : Parser α) (f : α → β) :
      Built α p → Built β (map p f)
  | andThenP {α β : Type} (p : Parser α) (f : α → Parser β) :
      Built α p → (∀ a, Built β (f a)) → Built β (and_then p f)

/-- A parser that fails only with a suffix of its input as the failure
slice. -/
def FailsWithin {α : Type} (p : Parser α) : Prop :=
  ∀ i e s, p i = .err e s → s <:+ i

/-- A parser that succeeds only with a suffix of its input as the
remainder. -/
def OkWithin {α : Type} (p : Parser α) : Prop :=
  ∀ i a s, p i = .ok a s → s <:+ i

/-- A parser that fails only with exactly its input as the failure slice. -/
def FailsUnconsumed {α : Type} (p : Parser α) : Prop :=
  ∀ i e s, p i = .err e s → s = i

/-! ### Basic lemmas about fields and digits -/

theorem length_takeWhile_le' (p : Nat → Bool) (l : List Nat) :
    (l.takeWhile p).length ≤ l.length := by
  induction l with
  | nil => simp
  | cons a t ih =>
    rw [List.takeWhile_cons]
    cases hpa : p a
    · simp
    · simp
      omega

theorem length_dropWhile_le' (p : Nat → Bool) (l : List Nat) :
    (l.dropWhile p).length ≤ l.length := by
  induction l with
  | nil => simp
  | cons a t ih =>
    rw [List.dropWhile_cons]
    cases hpa : p a
    · simp
    · simp
      omega

theorem firstField_length {i f : List Nat} (h : firstField i = some f) :
    f.length ≤ i.length := by
  simp only [firstField] at h
  by_cases hdw : i.dropWhile isWS = []
  · rw [if_pos hdw] at h; exact absurd h (by simp)
  · rw [if_neg hdw] at h
    have hf : f = (i.dropWhile isWS).takeWhile (fun c => !isWS c) := by
      simpa using h.symm
    calc f.length ≤ (i.dropWhile isWS).length := by
          rw [hf]; exact length_takeWhile_le' _ _
      _ ≤ i.length := length_dropWhile_le' _ _

theorem utf8Run_ascii : ∀ l : List Nat, (∀ b ∈ l, b ≤ 127) → utf8Run [] l = true
  | [], _ => rfl
  | b :: bs, h => by
    have hb : b ≤ 127 := h b (by simp)
    have ih := utf8Run_ascii bs (fun x hx => h x (List.mem_cons_of_mem b hx))
    rw [utf8Run, if_pos hb]
    exact ih

theorem validUtf8_ascii (l : List Nat) (h : ∀ b ∈ l, b ≤ 127) :
    validUtf8 l = true :=
  utf8Run_ascii l h

theorem toDecAux_eq_digits : ∀ fuel n : Nat, n ≤ fuel → toDecAux fuel n = Nat.digits 10 n
  | 0, n, h => by
    have : n = 0 := Nat.le_zero.mp h
    subst this; simp [toDecAux]
  | fuel + 1, n, h => by
    by_cases hn : n = 0
    · subst hn; simp [toDecAux]
    · have hdiv : n / 10 ≤ fuel := by
        have : n / 10 < n := Nat.div_lt_self (Nat.pos_of_ne_zero hn) (by norm_num)
        omega
      rw [toDecAux, if_neg hn, toDecAux_eq_digits fuel (n / 10) hdiv,
        Nat.digits_def' (by norm_num : 1 < 10) (Nat.pos_of_ne_zero hn)]

theorem toDecimal_eq (n : Nat) (hn : n ≠ 0) :
    toDecimal n = (Nat.digits 10 n).reverse.map (fun d => d + 48) := by
  rw [toDecimal, if_neg hn, toDecAux_eq_digits n n le_rfl]

theorem toDecimal_ne_nil (n : Nat) : toDecimal n ≠ [] := by
  by_cases hn : n = 0
  · subst hn; simp [toDecimal]
  · rw [toDecimal_eq n hn]
    simp [Nat.digits_ne_nil_iff_ne_zero.mpr hn]

theorem toDecimal_all_digit (n : Nat) : ∀ b ∈ toDecimal n, isDigitB b = true := by
  intro b hb
  by_cases hn : n = 0
  · subst hn
    rw [show toDecimal 0 = [48] from rfl] at hb
    simp only [List.mem_singleton] at hb
    subst hb; rfl
  · rw [toDecimal_eq n hn] at hb
    simp only [List.mem_map, List.mem_reverse] at hb
    obtain ⟨d, hd, rfl⟩ := hb
    have : d < 10 := Nat.digits_lt_base (by norm_num) hd
    simp [isDigitB]; omega

theorem decValue_aux (L : List Nat) (a : Nat) :
    ((L.reverse.map (fun d => d + 48)).foldl (fun acc d => 10 * acc + (d - 48)) a)
      = a * 10 ^ L.length + Nat.ofDigits 10 L := by
  induction L generalizing a with
  | nil => simp
  | cons d L ih =>
    simp only [List.reverse_cons, List.map_append, List.foldl_append, ih,
      List.map_cons, List.map_nil, List.foldl_cons, List.foldl_nil,
      List.length_cons, Nat.ofDigits_cons, Nat.add_sub_cancel]
    ring

theorem decValue_toDecimal (n : Nat) : decValue (toDecimal n) = n := by
  by_cases hn : n = 0
  · subst hn; rfl
  · rw [toDecimal_eq n hn]
    unfold decValue
    rw [decValue_aux, Nat.ofDigits_digits]
    simp

/-! ### Evaluation of the primitives on well-formed header material -/

theorem takeWhile_all_append (p : Nat → Bool) :
    ∀ (xs : List Nat) (y : Nat) (r : List Nat),
      (∀ b ∈ xs, p b = true) → p y = false → (xs ++ y :: r).takeWhile p = xs
  | [], y, r, _, hy => by simp [List.takeWhile_cons, hy]
  | a :: t, y, r, hxs, hy => by
    have ha : p a = true := hxs a (by simp)
    rw [List.cons_append, List.takeWhile_cons, if_pos ha,
      takeWhile_all_append p t y r (fun b hb => hxs b (List.mem_cons_of_mem a hb)) hy]

theorem drop_len_succ_append : ∀ (xs : List Nat) (y : Nat) (r : List Nat),
    (xs ++ y :: r).drop (xs.length + 1) = r
  | [], y, r => rfl
  | a :: t, y, r => by
    simp only [List.cons_append, List.length_cons, List.drop_succ_cons]
    exact drop_len_succ_append t y r

theorem firstField_field (b : Nat) (bs : List Nat) (sep : Nat) (r : List Nat)
    (hfp : ∀ x ∈ b :: bs, isWS x = false) (hsep : isWS sep = true) :
    firstField ((b :: bs) ++ sep :: r) = some (b :: bs) := by
  have hb : isWS b = false := hfp b (by simp)
  have hdw : ((b :: bs) ++ sep :: r).dropWhile isWS = (b :: bs) ++ sep :: r := by
    rw [List.cons_append, List.dropWhile_cons, if_neg (by simp [hb]), ← List.cons_append]
  simp only [firstField, hdw]
  rw [if_neg (by simp)]
  congr 1
  exact takeWhile_all_append _ _ _ _ (fun x hx => by simp [hfp x hx]) (by simp [hsep])

theorem parseI32_toDecimal (n : Nat) (hn : n ≤ 2147483647) :
    parseI32 (toDecimal n) = some (n : Int) := by
  obtain ⟨b, bs, hbbs⟩ : ∃ b bs, toDecimal n = b :: bs := by
    cases h : toDecimal n with
    | nil => exact absurd h (toDecimal_ne_nil n)
    | cons b bs => exact ⟨b, bs, rfl⟩
  have hall : (b :: bs).all isDigitB = true := by
    rw [List.all_eq_true]
    intro x hx
    exact toDecimal_all_digit n x (hbbs ▸ hx)
  have hb : isDigitB b = true := toDecimal_all_digit n b (by rw [hbbs]; simp)
  have hb' : 48 ≤ b ∧ b ≤ 57 := by simpa [isDigitB] using hb
  have hval : decValue (b :: bs) = n := hbbs ▸ decValue_toDecimal n
  rw [hbbs]
  simp only [parseI32]
  rw [if_neg (by omega : ¬b = 43), if_neg (by omega : ¬b = 45),
    if_pos ⟨hall, by rw [hval]; exact hn⟩, hval]

theorem get_num_decimal (n sep : Nat) (r : List Nat)
    (hn : n ≤ 2147483647) (hsep : isWS sep = true) :
    get_num (toDecimal n ++ sep :: r) = .ok (n : Int) r := by
  obtain ⟨b, bs, hbbs⟩ : ∃ b bs, toDecimal n = b :: bs := by
    cases h : toDecimal n with
    | nil => exact absurd h (toDecimal_ne_nil n)
    | cons b bs => exact ⟨b, bs, rfl⟩
  have hnws : ∀ x ∈ toDecimal n, isWS x = false := by
    intro x hx
    have hd : isDigitB x = true := toDecimal_all_digit n x hx
    have : 48 ≤ x ∧ x ≤ 57 := by simpa [isDigitB] using hd
    simp [isWS]; omega
  have hff : firstField (toDecimal n ++ sep :: r) = some (toDecimal n) := by
    rw [hbbs] at hnws ⊢
    exact firstField_field b bs sep r hnws hsep
  have hutf : validUtf8 (toDecimal n) = true := by
    apply validUtf8_ascii
    intro x hx
    have : 48 ≤ x ∧ x ≤ 57 := by simpa [isDigitB] using toDecimal_all_digit n x hx
    omega
  have hlt : (toDecimal n).length < (toDecimal n ++ sep :: r).length := by
    rw [List.length_append, List.length_cons]
    omega
  simp only [get_num, hff, hutf, if_pos, parseI32_toDecimal n hn]
  rw [if_neg (by omega : ¬(toDecimal n).length > (toDecimal n ++ sep :: r).length),
    if_neg (by omega : ¬(toDecimal n).length = (toDecimal n ++ sep :: r).length),
    drop_len_succ_append]

theorem mhv_ok (rest : List Nat) :
    match_header_version (80 :: 53 :: 10 :: rest) = .ok () rest := by
  simp only [match_header_version]
  rw [if_pos (show List.take 2 (80 :: 53 :: 10 :: rest) = [80, 53] from rfl),
    if_pos (show 3 ≤ (80 :: 53 :: 10 :: rest).length by simp)]
  rfl

theorem toUsize_natCast (n : Nat) (h : n < 18446744073709551616) :
    toUsize (n : Int) = n := by
  unfold toUsize
  rw [show ((2 : Int) ^ 64) = 18446744073709551616 by norm_num]
  omega

theorem emod256_natCast (M : Nat) : (((M : Int)) % 256).toNat = M % 256 := by
  omega

theorem get_bytes_exact (bytes : List Nat) :
    get_bytes bytes bytes.length = .ok bytes [] := by
  unfold get_bytes
  rw [if_pos le_rfl, List.take_length, List.drop_length]

theorem parse_pgm_eval (W H M : Nat) (bytes : List Nat)
    (hW : W ≤ 2147483647) (hH : H ≤ 2147483647) (hM : M ≤ 2147483647)
    (hWH : W * H ≤ 2147483647) (hlen : bytes.length = W * H) :
    parse_pgm (pgmInput W H M bytes) = .ok ⟨W, H, M % 256, bytes⟩ [] := by
  have h1 : match_header_version (pgmInput W H M bytes)
      = .ok () (toDecimal W ++ 32 :: (toDecimal H ++ 32 :: (toDecimal M ++ 10 :: bytes))) := by
    unfold pgmInput
    exact mhv_ok _
  have h2 := get_num_decimal W 32 (toDecimal H ++ 32 :: (toDecimal M ++ 10 :: bytes)) hW rfl
  have h3 := get_num_decimal H 32 (toDecimal M ++ 10 :: bytes) hH rfl
  have h4 := get_num_decimal M 10 bytes hM rfl
  have hcast : ((W : Int)) * ((H : Int)) = ((W * H : Nat) : Int) := by push_cast; ring
  have hg : ¬(((W : Int)) * ((H : Int)) < -2147483648 ∨
      2147483647 < ((W : Int)) * ((H : Int))) := by
    rw [hcast]
    omega
  have hamt : toUsize (((W : Int)) * ((H : Int))) = W * H := by
    rw [hcast]
    exact toUsize_natCast _ (by omega)
  have h5 : get_bytes bytes (toUsize (((W : Int)) * ((H : Int)))) = .ok bytes [] := by
    rw [hamt, ← hlen]
    exact get_bytes_exact bytes
  simp only [parse_pgm, and_then, h1, h2, h3, h4]
  rw [if_neg hg, h5]
  rw [toUsize_natCast W (by omega), toUsize_natCast H (by omega), emod256_natCast]

/-! ### Inversion lemmas for the primitives and combinators -/

theorem and_then_ok {α β : Type} {p : Parser α} {f : α → Parser β} {i : List Nat}
    {b : β} {s : List Nat} (h : and_then p f i = .ok b s) :
    ∃ a r, p i = .ok a r ∧ f a r = .ok b s := by
  unfold and_then at h
  cases hp : p i with
  | ok a r => rw [hp] at h; exact ⟨a, r, rfl, h⟩
  | err e t => rw [hp] at h; exact absurd h (by simp)
  | fatal => rw [hp] at h; exact absurd h (by simp)

theorem get_bytes_ok {i : List Nat} {n : Nat} {v r : List Nat}
    (h : get_bytes i n = .ok v r) :
    n ≤ i.length ∧ v = i.take n ∧ r = i.drop n := by
  simp only [get_bytes] at h
  by_cases hle : n ≤ i.length
  · rw [if_pos hle] at h
    have h2 : i.take n = v ∧ i.drop n = r := by simpa using h
    exact ⟨hle, h2.1.symm, h2.2.symm⟩
  · rw [if_neg hle] at h; exact absurd h (by simp)

theorem get_bytes_err {i s : List Nat} {n : Nat} {e : ParseErr}
    (h : get_bytes i n = .err e s) : s = i := by
  simp only [get_bytes] at h
  by_cases hle : n ≤ i.length
  · rw [if_pos hle] at h; exact absurd h (by simp)
  · rw [if_neg hle] at h; exact absurd h (by simp)

theorem mhv_err {i s : List Nat} {e : ParseErr}
    (h : match_header_version i = .err e s) : s = i := by
  unfold match_header_version at h
  by_cases ht : i.take 2 = [80, 53]
  · rw [if_pos ht] at h
    by_cases hl : 3 ≤ i.length
    · rw [if_pos hl] at h; exact absurd h (by simp)
    · rw [if_neg hl] at h; exact absurd h (by simp)
  · rw [if_neg ht] at h
    have h2 : ParseErr.NoHeaderMatch = e ∧ i = s := by simpa using h
    exact h2.2.symm

theorem mhv_ok_inv {i s : List Nat} {a : Unit}
    (h : match_header_version i = .ok a s) : s = i.drop 3 := by
  unfold match_header_version at h
  by_cases ht : i.take 2 = [80, 53]
  · rw [if_pos ht] at h
    by_cases hl : 3 ≤ i.length
    · rw [if_pos hl] at h
      have h2 : () = a ∧ i.drop 3 = s := by simpa using h
      exact h2.2.symm
    · rw [if_neg hl] at h; exact absurd h (by simp)
  · rw [if_neg ht] at h; exact absurd h (by simp)

theorem get_num_err {i s : List Nat} {e : ParseErr}
    (h : get_num i = .err e s) : s = i := by
  unfold get_num at h
  cases hff : firstField i with
  | none =>
    rw [hff] at h
    have h2 : ParseErr.NoValidFieldLeft = e ∧ i = s := by simpa using h
    exact h2.2.symm
  | some raw =>
    rw [hff] at h
    dsimp only [] at h
    by_cases hu : validUtf8 raw = true
    · rw [if_pos hu] at h
      cases hp : parseI32 raw with
      | none =>
        rw [hp] at h
        have h2 : ParseErr.InvalidNum = e ∧ i = s := by simpa using h
        exact h2.2.symm
      | some num =>
        rw [hp] at h
        dsimp only [] at h
        by_cases hg : raw.length > i.length
        · rw [if_pos hg] at h; exact absurd h (by simp)
        · rw [if_neg hg] at h
          by_cases heq : raw.length = i.length
          · rw [if_pos heq] at h; exact absurd h (by simp)
          · rw [if_neg heq] at h; exact absurd h (by simp)
    · rw [if_neg hu] at h
      have h2 : ParseErr.Utf8Error = e ∧ i = s := by simpa using h
      exact h2.2.symm

theorem get_num_ok {i s : List Nat} {num : Int}
    (h : get_num i = .ok num s) :
    ∃ raw, firstField i = some raw ∧
      s = i.drop (if raw.length = i.length then raw.length else raw.length + 1) := by
  unfold get_num at h
  cases hff : firstField i with
  | none => rw [hff] at h; exact absurd h (by simp)
  | some raw =>
    rw [hff] at h
    dsimp only [] at h
    by_cases hu : validUtf8 raw = true
    · rw [if_pos hu] at h
      cases hp : parseI32 raw with
      | none => rw [hp] at h; exact absurd h (by simp)
      | some num2 =>
        rw [hp] at h
        dsimp only [] at h
        by_cases hg : raw.length > i.length
        · rw [if_pos hg] at h; exact absurd h (by simp)
        · rw [if_neg hg] at h
          by_cases heq : raw.length = i.length
          · rw [if_pos heq] at h
            have h2 : num2 = num ∧ i.drop raw.length = s := by simpa using h
            exact ⟨raw, rfl, by rw [if_pos heq, h2.2]⟩
          · rw [if_neg heq] at h
            have h2 : num2 = num ∧ i.drop (raw.length + 1) = s := by simpa using h
            exact ⟨raw, rfl, by rw [if_neg heq, h2.2]⟩
    · rw [if_neg hu] at h; exact absurd h (by simp)

theorem get_num_not_fatal (i : List Nat) : get_num i ≠ .fatal := by
  unfold get_num
  cases hff : firstField i with
  | none => simp
  | some raw =>
    dsimp only []
    have hlen : raw.length ≤ i.length := firstField_length hff
    by_cases hu : validUtf8 raw = true
    · rw [if_pos hu]
      cases hp : parseI32 raw with
      | none => simp
      | some num =>
        dsimp only []
        rw [if_neg (by omega : ¬raw.length > i.length)]
        by_cases heq : raw.length = i.length
        · rw [if_pos heq]; simp
        · rw [if_neg heq]; simp
    · rw [if_neg hu]; simp

theorem built_within {α : Type} {p : Parser α} (hb : Built α p) :
    FailsWithin p ∧ OkWithin p := by
  induction hb with
  | headerP =>
    constructor
    · intro i e s h
      rw [mhv_err h]
    · intro i a s h
      rw [mhv_ok_inv h]
      exact List.drop_suffix 3 i
  | numP =>
    constructor
    · intro i e s h
      rw [get_num_err h]
    · intro i a s h
      obtain ⟨raw, _, hs⟩ := get_num_ok h
      rw [hs]
      exact List.drop_suffix _ i
  | bytesP n =>
    constructor
    · intro i e s h
      rw [get_bytes_err h]
    · intro i a s h
      rw [(get_bytes_ok h).2.2]
      exact List.drop_suffix n i
  | pureP a =>
    constructor
    · intro i e s h
      exact absurd h (by simp)
    · intro i a2 s h
      have h2 : a = a2 ∧ i = s := by simpa using h
      rw [← h2.2]
  | fatalP =>
    constructor
    · intro i e s h
      exact absurd h (by simp)
    · intro i a s h
      exact absurd h (by simp)
  | mapP p f hp ih =>
    obtain ⟨ihf, iho⟩ := ih
    constructor
    · intro i e s h
      unfold map at h
      cases hp2 : p i with
      | ok a r => rw [hp2] at h; exact absurd h (by simp)
      | err e2 s2 =>
        rw [hp2] at h
        have h2 : e2 = e ∧ s2 = s := by simpa using h
        rw [← h2.2]
        exact ihf i e2 s2 hp2
      | fatal => rw [hp2] at h; exact absurd h (by simp)
    · intro i a s h
      unfold map at h
      cases hp2 : p i with
      | ok a2 r =>
        rw [hp2] at h
        have h2 : f a2 = a ∧ r = s := by simpa using h
        rw [← h2.2]
        exact iho i a2 r hp2
      | err e2 s2 => rw [hp2] at h; exact absurd h (by simp)
      | fatal => rw [hp2] at h; exact absurd h (by simp)
  | andThenP p f hp hf ihp ihf =>
    obtain ⟨ipf, ipo⟩ := ihp
    constructor
    · intro i e s h
      unfold and_then at h
      cases hp2 : p i with
      | ok a r =>
        rw [hp2] at h
        exact ((ihf a).1 r e s h).trans (ipo i a r hp2)
      | err e2 s2 =>
        rw [hp2] at h
        have h2 : e2 = e ∧ s2 = s := by simpa using h
        rw [← h2.2]
        exact ipf i e2 s2 hp2
      | fatal => rw [hp2] at h; exact absurd h (by simp)
    · intro i a s h
      unfold and_then at h
      cases hp2 : p i with
      | ok a2 r =>
        rw [hp2] at h
        exact ((ihf a2).2 r a s h).trans (ipo i a2 r hp2)
      | err e2 s2 => rw [hp2] at h; exact absurd h (by simp)
      | fatal => rw [hp2] at h; exact absurd h (by simp)

theorem toUsize_mul (x y : Int) :
    toUsize (x * y) = toUsize x * toUsize y % 2 ^ 64 := by
  unfold toUsize
  have hne : ((2 : Int) ^ 64) ≠ 0 := by norm_num
  obtain ⟨m, hm⟩ : ∃ m : Nat, x % 2 ^ 64 = (m : Int) :=
    ⟨(x % 2 ^ 64).toNat, (Int.toNat_of_nonneg (Int.emod_nonneg x hne)).symm⟩
  obtain ⟨n, hn⟩ : ∃ n : Nat, y % 2 ^ 64 = (n : Int) :=
    ⟨(y % 2 ^ 64).toNat, (Int.toNat_of_nonneg (Int.emod_nonneg y hne)).symm⟩
  have hmn : ((m : Int)) * ((n : Int)) = ((m * n : Nat) : Int) := by push_cast; ring
  rw [Int.mul_emod, hm, hn, hmn, Int.toNat_natCast, Int.toNat_natCast,
    show ((2 : Int) ^ 64) = 18446744073709551616 by norm_num,
    show ((2 : Nat) ^ 64) = 18446744073709551616 by norm_num]
  omega

theorem dropWhile_nil_of_all (p : Nat → Bool) :
    ∀ l : List Nat, (∀ b ∈ l, p b = true) → l.dropWhile p = []
  | [], _ => rfl
  | b :: bs, h => by
    rw [List.dropWhile_cons, if_pos (h b (by simp))]
    exact dropWhile_nil_of_all p bs (fun x hx => h x (List.mem_cons_of_mem b hx))

theorem built_parse_pgm : Built PGM parse_pgm := by
  unfold parse_pgm
  apply Built.andThenP _ _ Built.headerP
  intro u
  apply Built.andThenP _ _ Built.numP
  intro width
  apply Built.andThenP _ _ Built.numP
  intro height
  apply Built.andThenP _ _ Built.numP
  intro max_grey_val
  apply Built.andThenP
  · by_cases hc : width * height < -2147483648 ∨ 2147483647 < width * height
    · have he : (fun i : List Nat =>
          if width * height < -2147483648 ∨ 2147483647 < width * height
          then PResult.fatal else get_bytes i (toUsize (width * height)))
          = fun _ : List Nat => (PResult.fatal : PResult (List Nat)) := by
        funext i; rw [if_pos hc]
      rw [he]
      exact Built.fatalP
    · have he : (fun i : List Nat =>
          if width * height < -2147483648 ∨ 2147483647 < width * height
          then PResult.fatal else get_bytes i (toUsize (width * height)))
          = fun i : List Nat => get_bytes i (toUsize (width * height)) := by
        funext i; rw [if_neg hc]
      rw [he]
      exact Built.bytesP _
  · intro contents
    exact Built.pureP _

/-! ### Claim theorems -/

/-- C1: the claim says that when fewer bytes remain than requested,
`get_bytes` (and hence `parse_pgm` on a short pixel section) returns the
`InvByte` error with the original input as the failure slice.  The code
instead aborts: reading from a byte slice never produces an `Err`, so the
`InvByte` conversion is dead code and the slice `&input[amount..]` panics.
This theorem evaluates the code at the failing inputs: `get_bytes` on the
empty slice with `amount = 1`, and `parse_pgm` on `"P5\n1 1 255\n"`, whose
pixel section is one byte short. -/
theorem C1_get_bytes_aborts :
    get_bytes [] 1 = .fatal ∧
    parse_pgm [80, 53, 10, 49, 32, 49, 32, 50, 53, 53, 10] = .fatal := by
  exact ⟨by decide, by decide⟩

/-- C2 (counterexample): with `W = 0`, `H = 0`, `M = 256` and an empty pixel
buffer, `parse_pgm` succeeds but the record's `max_grey_val` is `256 % 256 =
0`, not `M = 256` as the claim requires. -/
theorem C2_counterexample :
    parse_pgm (pgmInput 0 0 256 []) = .ok ⟨0, 0, 0, []⟩ [] ∧
    (PGM.mk 0 0 0 []).max_grey_val ≠ 256 := by
  exact ⟨by decide, by decide⟩

/-- C2 (amended): the round trip holds once the fields actually fit: for
`W, H, M ≥ 0` with `W`, `H`, and `W * H` at most `i32::MAX` (larger numeric
fields fail `i32` parsing, and an overflowing `width * height` product
aborts) and `M ≤ 255` (larger values are truncated by the `as u8` cast),
`parse_pgm` on `"P5\n" ++ decimal W ++ " " ++ decimal H ++ " " ++ decimal M ++
"\n" ++ bytes` with `bytes.length = W * H` succeeds with exactly the record
`⟨W, H, M, bytes⟩` and no leftover input. -/
theorem C2_roundtrip (W H M : Nat) (bytes : List Nat)
    (hW : W ≤ 2147483647) (hH : H ≤ 2147483647) (hM : M ≤ 255)
    (hWH : W * H ≤ 2147483647) (hlen : bytes.length = W * H) :
    parse_pgm (pgmInput W H M bytes) = .ok ⟨W, H, M, bytes⟩ [] := by
  have h := parse_pgm_eval W H M bytes hW hH (by omega) hWH hlen
  rwa [Nat.mod_eq_of_lt (by omega)] at h

/-- C2 witness: the amended round trip at `W = 2`, `H = 3`, `M = 255` and a
six-byte pixel buffer. -/
theorem C2_roundtrip_witness :
    parse_pgm (pgmInput 2 3 255 [1, 2, 3, 4, 5, 6])
      = .ok ⟨2, 3, 255, [1, 2, 3, 4, 5, 6]⟩ [] :=
  C2_roundtrip 2 3 255 [1, 2, 3, 4, 5, 6]
    (by decide) (by decide) (by decide) (by decide) (by decide)

/-- C3 (counterexample): a parser built with `and_then` can fail with a slice
that is not the input it was given.  Sequencing two `get_num`s on `"12 x"`
fails (the second field is not a number) with slice `"x"`, a strict suffix of
the input. -/
theorem C3_counterexample :
    and_then get_num (fun _ => get_num) [49, 50, 32, 120]
        = .err .InvalidNum [120] ∧
    ([120] : List Nat) ≠ [49, 50, 32, 120] := by
  exact ⟨by decide, by decide⟩

/-- C3 (amended): each primitive, when it fails, returns exactly its own
input as the failure slice; every parser built from the primitives, constant
parsers and aborting closures with `map` and `and_then` (the sequencing macro
expands to `and_then` chains, and `parse_pgm` itself is in that grammar)
fails with the slice given to the sub-parser that failed — a suffix of the
composite's input, not necessarily the whole input. -/
theorem C3_failure_slices :
    FailsUnconsumed match_header_version ∧
    FailsUnconsumed get_num ∧
    (∀ n : Nat, FailsUnconsumed (fun i => get_bytes i n)) ∧
    (∀ (α : Type) (p : Parser α), Built α p → FailsWithin p) ∧
    Built PGM parse_pgm := by
  refine ⟨?_, ?_, ?_, ?_, built_parse_pgm⟩
  · intro i e s h; exact mhv_err h
  · intro i e s h; exact get_num_err h
  · intro n i e s h; exact get_bytes_err h
  · intro α p hb; exact (built_within hb).1

/-- C3 witness: the composite `and_then get_num (fun _ => get_num)` on
`"12 x"` fails with slice `"x"`, which the theorem shows is a suffix of the
input. -/
theorem C3_failure_slices_witness :
    ([120] : List Nat) <:+ [49, 50, 32, 120] :=
  C3_failure_slices.2.2.2.1 Int (and_then get_num fun _ => get_num)
    (Built.andThenP _ _ Built.numP fun _ => Built.numP)
    [49, 50, 32, 120] ParseErr.InvalidNum [120] (by decide)

/-- C4 (counterexample): on `"P5\n-1 -1 0\n" ++ [7]` the parse succeeds —
`-1 * -1 = 1` pixel byte is read — but `width` and `height` are the `as
usize` wrap of `-1`, so `contents.length = 1` differs from the mathematical
product `width * height`. -/
theorem C4_counterexample :
    parse_pgm [80, 53, 10, 45, 49, 32, 45, 49, 32, 48, 10, 7]
        = .ok ⟨18446744073709551615, 18446744073709551615, 0, [7]⟩ [] ∧
    (PGM.mk 18446744073709551615 18446744073709551615 0 [7]).contents.length ≠
      (PGM.mk 18446744073709551615 18446744073709551615 0 [7]).width *
        (PGM.mk 18446744073709551615 18446744073709551615 0 [7]).height := by
  exact ⟨by decide, by decide⟩

/-- C4 (amended): whenever `parse_pgm` succeeds, the record satisfies
`contents.length = width * height % 2^64` — the invariant holds in `usize`
arithmetic; it is the exact equation whenever the parsed width and height are
non-negative, but negative parsed dimensions wrap through `as usize`. -/
theorem C4_contents_length {i : List Nat} {pgm : PGM} {rest : List Nat}
    (h : parse_pgm i = .ok pgm rest) :
    pgm.contents.length = pgm.width * pgm.height % 2 ^ 64 := by
  unfold parse_pgm at h
  obtain ⟨u1, r1, h1, h⟩ := and_then_ok h
  obtain ⟨w, r2, h2, h⟩ := and_then_ok h
  obtain ⟨hgt, r3, h3, h⟩ := and_then_ok h
  obtain ⟨m, r4, h4, h⟩ := and_then_ok h
  obtain ⟨contents, r5, h5, h⟩ := and_then_ok h
  have hrec : PGM.mk (toUsize w) (toUsize hgt) ((m % 256).toNat) contents = pgm ∧
      r5 = rest := by simpa using h
  by_cases hof : w * hgt < -2147483648 ∨ 2147483647 < w * hgt
  · rw [if_pos hof] at h5; exact absurd h5 (by simp)
  · rw [if_neg hof] at h5
    have hb := get_bytes_ok h5
    have hclen : contents.length = toUsize (w * hgt) := by
      rw [hb.2.1, List.length_take]
      exact Nat.min_eq_left hb.1
    rw [← hrec.1]
    dsimp only []
    rw [hclen, toUsize_mul]

/-- C4 witness: the amended invariant at the parse of `"P5\n1 1 0\n" ++ [5]`,
whose record is `⟨1, 1, 0, [5]⟩`. -/
theorem C4_contents_length_witness :
    (PGM.mk 1 1 0 [5]).contents.length =
      (PGM.mk 1 1 0 [5]).width * (PGM.mk 1 1 0 [5]).height % 2 ^ 64 :=
  @C4_contents_length (pgmInput 1 1 0 [5]) (PGM.mk 1 1 0 [5]) [] (by decide)

/-- C5 (counterexample): the claim says the header matcher succeeds on
exactly the inputs that begin with `"P5"`, but on the two-byte input that is
exactly `"P5"` the unconditional `len + 1` slice aborts instead of
succeeding. -/
theorem C5_counterexample :
    List.take 2 [80, 53] = [80, 53] ∧
    match_header_version [80, 53] = .fatal := by
  exact ⟨by decide, by decide⟩

/-- C5 (amended): the header matcher succeeds on exactly the inputs that
begin with `"P5"` and have at least one byte after the tag, consuming three
bytes and never checking that the skipped byte is a newline; in particular
for every `"P5\n" ++ rest` it returns `()` with leftover exactly `rest`, and
for every input not starting with `"P5"` it fails with `NoHeaderMatch`
returning the input unchanged.  On the single input that is exactly `"P5"`
the slice `&input[3..]` aborts. -/
theorem C5_header_match :
    (∀ rest : List Nat, match_header_version (80 :: 53 :: 10 :: rest) = .ok () rest) ∧
    (∀ (b : Nat) (rest : List Nat),
      match_header_version (80 :: 53 :: b :: rest) = .ok () rest) ∧
    (∀ i : List Nat, i.take 2 ≠ [80, 53] →
      match_header_version i = .err .NoHeaderMatch i) ∧
    match_header_version [80, 53] = .fatal := by
  refine ⟨fun rest => mhv_ok rest, fun b rest => ?_, fun i hne => ?_, by decide⟩
  · simp only [match_header_version]
    rw [if_pos (show List.take 2 (80 :: 53 :: b :: rest) = [80, 53] from rfl),
      if_pos (show 3 ≤ (80 :: 53 :: b :: rest).length by simp)]
    rfl
  · simp only [match_header_version]
    rw [if_neg hne]

/-- C5 witness: the tag followed by a non-newline byte is still accepted, and
an input with the wrong first byte fails with the unchanged input. -/
theorem C5_header_match_witness :
    match_header_version [80, 53, 120, 7] = .ok () [7] ∧
    match_header_version [81, 53, 10] = .err .NoHeaderMatch [81, 53, 10] :=
  ⟨C5_header_match.2.1 120 [7], C5_header_match.2.2.1 [81, 53, 10] (by decide)⟩

/-- C6: whenever `get_num` succeeds, the remainder is the input with the
first field's length dropped when that length equals the input's length, and
the field's length plus one dropped otherwise; in particular
`get_num "12" = (12, "")` and `get_num "12 24" = (12, "24")`. -/
theorem C6_consumption :
    (∀ (i : List Nat) (n : Int) (r : List Nat), get_num i = .ok n r →
      ∃ raw, firstField i = some raw ∧
        r = i.drop (if raw.length = i.length then raw.length else raw.length + 1)) ∧
    get_num [49, 50] = .ok 12 [] ∧
    get_num [49, 50, 32, 50, 52] = .ok 12 [50, 52] :=
  ⟨fun i n r h => get_num_ok h, by decide, by decide⟩

/-- C6 witness: the consumption equation instantiated at `"12 24"`. -/
theorem C6_consumption_witness :
    ∃ raw, firstField [49, 50, 32, 50, 52] = some raw ∧
      [50, 52] = List.drop
        (if raw.length = ([49, 50, 32, 50, 52] : List Nat).length
          then raw.length else raw.length + 1) [49, 50, 32, 50, 52] :=
  C6_consumption.1 [49, 50, 32, 50, 52] 12 [50, 52] (by decide)

/-- C7: on an input that is empty or all whitespace, `get_num` fails with
`NoValidFieldLeft` and the unchanged input; on an input whose first field is
valid UTF-8 text but not a valid `i32`, it fails with `InvalidNum` and the
unchanged original input. -/
theorem C7_failures :
    (∀ i : List Nat, (∀ b ∈ i, isWS b = true) →
      get_num i = .err .NoValidFieldLeft i) ∧
    (∀ i raw : List Nat, firstField i = some raw → validUtf8 raw = true →
      parseI32 raw = none → get_num i = .err .InvalidNum i) := by
  constructor
  · intro i hws
    have hff : firstField i = none := by
      simp [firstField, dropWhile_nil_of_all isWS i hws]
    simp only [get_num, hff]
  · intro i raw hff hu hp
    simp only [get_num, hff]
    rw [if_pos hu, hp]

/-- C7 witness: the two failure shapes at `"   "` and `"12x"`. -/
theorem C7_failures_witness :
    get_num [32, 32, 32] = .err .NoValidFieldLeft [32, 32, 32] ∧
    get_num [49, 50, 120] = .err .InvalidNum [49, 50, 120] :=
  ⟨C7_failures.1 [32, 32, 32] (by decide),
    C7_failures.2 [49, 50, 120] [49, 50, 120] (by decide) (by decide) (by decide)⟩

/-- C8: the first whitespace-delimited field is never longer than the input,
so the `Ordering::Greater` panic arm of `get_num` is unreachable and
`get_num` never aborts. -/
theorem C8_no_abort :
    (∀ i raw : List Nat, firstField i = some raw → raw.length ≤ i.length) ∧
    (∀ i : List Nat, get_num i ≠ .fatal) :=
  ⟨fun _ _ h => firstField_length h, get_num_not_fatal⟩

/-- C8 witness: the field bound at `" 12"` (field `"12"` inside a three-byte
input) and the no-abort fact at the empty input. -/
theorem C8_no_abort_witness :
    ([49, 50] : List Nat).length ≤ ([32, 49, 50] : List Nat).length ∧
    get_num [] ≠ .fatal :=
  ⟨C8_no_abort.1 [32, 49, 50] [49, 50] (by decide), C8_no_abort.2 []⟩

/-- C9: on `"  12 24"` (two leading whitespace bytes) `get_num` parses 12 but
drops `field length + 1 = 3` bytes from the start of the input, ignoring the
skipped whitespace, so the remainder `"2 24"` still contains a digit of the
field just parsed. -/
theorem C9_leading_ws :
    get_num [32, 32, 49, 50, 32, 50, 52] = .ok 12 [50, 32, 50, 52] := by
  decide

/-- C10: a max-grey field outside `[0, 255]` does not make `parse_pgm` fail;
the `as u8` cast stores the value reduced modulo 256.  Stated for every
well-formed input with `255 < M ≤ i32::MAX` (in particular `M = 300` stores
`44`); the final conjunct checks the negative case `"P5\n1 1 -1\n" ++ [9]`,
stored as `255`. -/
theorem C10_maxgrey_mod :
    (∀ (W H M : Nat) (bytes : List Nat), W ≤ 2147483647 → H ≤ 2147483647 →
      255 < M → M ≤ 2147483647 → W * H ≤ 2147483647 → bytes.length = W * H →
      parse_pgm (pgmInput W H M bytes) = .ok ⟨W, H, M % 256, bytes⟩ []) ∧
    parse_pgm [80, 53, 10, 49, 32, 49, 32, 45, 49, 10, 9] = .ok ⟨1, 1, 255, [9]⟩ [] :=
  ⟨fun W H M bytes hW hH _ hM hWH hlen => parse_pgm_eval W H M bytes hW hH hM hWH hlen,
    by decide⟩

/-- C10 witness: `M = 300` on a one-pixel image is stored as `300 % 256 =
44`. -/
theorem C10_maxgrey_mod_witness :
    parse_pgm (pgmInput 1 1 300 [9]) = .ok ⟨1, 1, 300 % 256, [9]⟩ [] :=
  C10_maxgrey_mod.1 1 1 300 [9]
    (by decide) (by decide) (by decide) (by decide) (by decide) (by decide)
